import Mathlib

/-!
Shallow embedding of the ui5-plugin-loader resolution pipeline
(`src/lib/core.js`, exposed in the repository as `part_005`) and of the
dispatch adapter in `src/lib/middleware.js`.

Modelling conventions:
* Extension descriptors are records over `String`/`Option String` fields.
  The opaque `configuration` payload is modelled as an association list
  with string values; the pipeline never inspects the values, it only
  copies or shallow-merges them, so an atomic value type is faithful.
* JavaScript `undefined` on an optional field is `none`; `delete` is
  assignment of `none`.  JavaScript truthiness of an optional string
  (`!ext.afterMiddleware`) distinguishes `none` and the empty string from
  other strings; it is modelled by `truthy`.
* `name.localeCompare` in the sort comparator is modelled as ordinal
  (code-point lexicographic) string comparison, the order Lean's
  `LinearOrder String` instance provides.
-/

namespace UI5PluginLoader

inductive ExtType where
  | middleware
  | task
deriving DecidableEq, Repr

/-- A JavaScript-object payload: association list of string keys. -/
abbrev ConfigObj := List (String × String)

/-- First-match key lookup in an association list (JS property access). -/
def objLookup {α : Type} (k : String) : List (String × α) → Option α
  | [] => none
  | kv :: rest => if kv.1 = k then some kv.2 else objLookup k rest

/-- Left-biased choice on optional values, used to state key-by-key
shallow-merge lookups. -/
def optOr {α : Type} : Option α → Option α → Option α
  | some v, _ => some v
  | none, o => o

/-- JS object spread `{...base, ...patch}`: keys of `base` keep their
position but take the patch value when the patch has the key; keys only in
the patch are appended in patch order. -/
def objMerge (base patch : ConfigObj) : ConfigObj :=
  base.map (fun kv =>
    match objLookup kv.1 patch with
    | some v => (kv.1, v)
    | none => kv)
  ++ patch.filter (fun kv => (objLookup kv.1 base).isNone)

/-- One extension descriptor, as produced by manifest discovery
(`discoverManifests` spreads the manifest entry and tags `type`,
`dependency` and `source`). -/
structure Ext where
  name : String
  type : ExtType
  afterMiddleware : Option String := none
  beforeMiddleware : Option String := none
  afterTask : Option String := none
  beforeTask : Option String := none
  mountPath : Option String := none
  configuration : ConfigObj := []
  dependency : String := ""
  source : String := ""
deriving DecidableEq, Repr

/-- One override patch from the loader configuration's `override` map. -/
structure OverridePatch where
  afterMiddleware : Option String := none
  beforeMiddleware : Option String := none
  afterTask : Option String := none
  beforeTask : Option String := none
  mountPath : Option String := none
  configuration : Option ConfigObj := none
deriving DecidableEq, Repr

abbrev OverrideMap := List (String × OverridePatch)

/-- JS truthiness of an optional string property: `undefined` and the
empty string are falsy. -/
def truthy : Option String → Bool
  | none => false
  | some s => !s.isEmpty

-- ========== Step 1: loadConfig ==========

/-- One duck-typed JS configuration object, projected onto exactly the
observations `loadConfig` makes of it: the truthiness of `debug`, the
`disable` property when it is an array, the `override` property when it
is an object, and the key list `Object.keys` enumerates. -/
structure CfgObj where
  debugVal : Bool := false
  disableVal : Option (List String) := none
  overrideVal : Option OverrideMap := none
  keys : List String := []
deriving DecidableEq

/-- The raw configuration handed to `loadConfig`: its own properties plus
the nested `configuration` property when that property is truthy. -/
structure RawConfig where
  top : CfgObj := {}
  configuration : Option CfgObj := none
deriving DecidableEq

structure NormalizedConfig where
  debug : Bool
  disable : List String
  override : OverrideMap
deriving DecidableEq

def knownKeys : List String :=
  ["debug", "disable", "override", "middlewareName", "configuration"]

/-- `loadConfig` from core.js: unwrap `config.configuration || config`,
coerce the three fields with defaults, and warn on unknown keys of the
unwrapped object.  Returns the normalized configuration together with the
list of keys reported by the unknown-key warning loop. -/
def loadConfig (config : RawConfig) : NormalizedConfig × List String :=
  let src := config.configuration.getD config.top
  ({ debug := src.debugVal,
     disable := src.disableVal.getD [],
     override := src.overrideVal.getD [] },
   src.keys.filter (fun k => !decide (k ∈ knownKeys)))

-- ========== Step 3: applyDisable ==========

def applyDisable (extensions : List Ext) (disableList : List String) : List Ext :=
  if disableList.isEmpty then extensions
  else extensions.filter (fun ext => !decide (ext.name ∈ disableList))

-- ========== Step 4: fillDefaults ==========

/-- Per-descriptor body of `fillDefaults`.  The two `if` blocks of the
source run in sequence on `updated`, but their guards are mutually
exclusive (a descriptor's `type` is either middleware or task), so a
conditional chain is equivalent. -/
def fillDefaultExt (ext : Ext) : Ext :=
  if ext.type = ExtType.middleware ∧ ¬ truthy ext.afterMiddleware ∧ ¬ truthy ext.beforeMiddleware then
    { ext with afterMiddleware := some "compression" }
  else if ext.type = ExtType.task ∧ ¬ truthy ext.afterTask ∧ ¬ truthy ext.beforeTask then
    { ext with afterTask := some "replaceVersion" }
  else ext

def fillDefaults (extensions : List Ext) : List Ext :=
  extensions.map fillDefaultExt

-- ========== Step 5: applyOverride ==========

/-- Per-descriptor body of `applyOverride` for a descriptor whose name has
a patch: the five `!== undefined` blocks run in source order (so a patch
carrying both hints of one axis ends with the later block's hint), then
the configuration objects are shallow-merged. -/
def applyOverrideExt (ext : Ext) (ov : OverridePatch) : Ext :=
  let u1 :=
    match ov.afterMiddleware with
    | some v => { ext with afterMiddleware := some v, beforeMiddleware := none }
    | none => ext
  let u2 :=
    match ov.beforeMiddleware with
    | some v => { u1 with beforeMiddleware := some v, afterMiddleware := none }
    | none => u1
  let u3 :=
    match ov.afterTask with
    | some v => { u2 with afterTask := some v, beforeTask := none }
    | none => u2
  let u4 :=
    match ov.beforeTask with
    | some v => { u3 with beforeTask := some v, afterTask := none }
    | none => u3
  let u5 :=
    match ov.mountPath with
    | some v => { u4 with mountPath := some v }
    | none => u4
  match ov.configuration with
  | some oc => { u5 with configuration := objMerge u5.configuration oc }
  | none => u5

def applyOverride (extensions : List Ext) (overrideMap : OverrideMap) : List Ext :=
  if overrideMap.isEmpty then extensions
  else extensions.map fun ext =>
    match objLookup ext.name overrideMap with
    | none => ext
    | some ov => applyOverrideExt ext ov

-- ========== Step 6: validateRefs ==========

/-- `validateRefs` only emits warnings about dangling order-hint targets;
it returns its input list unchanged. -/
def validateRefs (extensions : List Ext) : List Ext :=
  extensions

-- ========== Step 7: deduplicate ==========

/-- The traversal of `deduplicate` with its `seen` name set made explicit. -/
def dedupGo (seen : List String) : List Ext → List Ext
  | [] => []
  | ext :: rest =>
    if ext.name ∈ seen then dedupGo seen rest
    else ext :: dedupGo (ext.name :: seen) rest

def deduplicate (extensions : List Ext) : List Ext :=
  dedupGo [] extensions

-- ========== Step 8: smartSort ==========

/-- Substring containment on character lists. -/
def listContains (pat : List Char) : List Char → Bool
  | [] => pat.isEmpty
  | c :: rest => pat.isPrefixOf (c :: rest) || listContains pat rest

/-- Case-insensitive substring test: the model of the `/pat/i.test(name)`
regular-expression tests (all four patterns are lowercase literals). -/
def containsCI (s pat : String) : Bool :=
  listContains pat.data (s.data.map Char.toLower)

/-- The fixed pattern list of `smartSort`. -/
def smartPatterns : List (String × Nat) :=
  [("stringreplace", 10), ("transpile", 20), ("modules", 30), ("livereload", 40)]

def smartOrderGo (name : String) : List (String × Nat) → Nat
  | [] => 50
  | po :: rest => if containsCI name po.1 then po.2 else smartOrderGo name rest

/-- The `_smartOrder` value assigned to a descriptor name: the bucket of
the first matching pattern, 50 for the rest. -/
def smartOrder (name : String) : Nat :=
  smartOrderGo name smartPatterns

/-- The sort comparator as a binary `le` test: `comparator(a,b) <= 0`.
`localeCompare` is modelled as ordinal string comparison. -/
def sortLe (a b : Ext) : Bool :=
  if smartOrder a.name = smartOrder b.name then decide (a.name ≤ b.name)
  else decide (smartOrder a.name < smartOrder b.name)

def sortRel (a b : Ext) : Prop :=
  sortLe a b = true

instance : DecidableRel sortRel :=
  fun a b => inferInstanceAs (Decidable (sortLe a b = true))

/-- `smartSort`: stable sort by `(_smartOrder, name)`.  `_smartOrder` is a
pure function of the name (`smartOrder`), so it is modelled as derived
rather than as a stored field.  ECMAScript's `Array.sort` is a stable sort
consistent with the comparator; it is modelled by the stable
`List.insertionSort`, which has the same input/output contract. -/
def smartSort (extensions : List Ext) : List Ext :=
  List.insertionSort sortRel extensions

-- ========== Pipeline composition (processPipeline after discovery) ==========

structure PipelineOutput where
  middleware : List Ext
  tasks : List Ext
deriving DecidableEq

/-- The stage chain of `processPipeline` on an already-discovered
descriptor list: normalization, disable, defaults, overrides, reference
validation, deduplication, sort, category split. -/
def processStages (extensions : List Ext) (config : RawConfig) : PipelineOutput :=
  let normalizedConfig := (loadConfig config).1
  let withoutDisabled := applyDisable extensions normalizedConfig.disable
  let withDefaults := fillDefaults withoutDisabled
  let withOverrides := applyOverride withDefaults normalizedConfig.override
  let validated := validateRefs withOverrides
  let deduplicated := deduplicate validated
  let sorted := smartSort deduplicated
  { middleware := sorted.filter (fun ext => decide (ext.type = ExtType.middleware)),
    tasks := sorted.filter (fun ext => decide (ext.type = ExtType.task)) }

-- ========== Dispatch adapter (src/lib/middleware.js, returned closure) ==========

/-- Opaque error values thrown by handlers. -/
abbrev Err := String

/-- Opaque request values. -/
abbrev Req := String

/-- What one loaded handler does, synchronously, when invoked on a
request: either it throws, or it calls the chain continuation `run` once,
with or without an error argument. -/
inductive HandlerAction where
  | throws (e : Err)
  | callsNext (err : Option Err)
deriving DecidableEq, Repr

structure LoadedMiddleware where
  name : String
  fn : Req → HandlerAction

/-- The observable outcome of one request through the composite closure:
which handlers ran, which `logger.error` attributions were emitted by the
catch block, and the argument the terminal continuation `next` finally
received (`none` models `next()`, `some e` models `next(e)`). -/
structure RunResult where
  invoked : List String
  logged : List (String × Err)
  terminal : Option Err
deriving DecidableEq, Repr

/-- The `run` closure of the dispatch adapter, one recursion step per
handler index.  `run`'s `if (err)` guard is a truthiness test, so the
chain stops with `next(err)` only for a truthy error argument; a falsy
one (no argument, `undefined`, or the empty string) falls through and
the chain continues with the next handler.  A throwing handler is the
`throws` arm: the catch block logs `(name, e)` and re-enters `run e`,
which therefore stops the chain only when the thrown value is truthy. -/
def runChainGo (req : Req) : List LoadedMiddleware → RunResult
  | [] => { invoked := [], logged := [], terminal := none }
  | m :: rest =>
    match m.fn req with
    | HandlerAction.throws e =>
        if e.isEmpty then
          let r := runChainGo req rest
          { invoked := m.name :: r.invoked, logged := (m.name, e) :: r.logged,
            terminal := r.terminal }
        else
          { invoked := [m.name], logged := [(m.name, e)], terminal := some e }
    | HandlerAction.callsNext err =>
        if truthy err then
          { invoked := [m.name], logged := [], terminal := err }
        else
          let r := runChainGo req rest
          { invoked := m.name :: r.invoked, logged := r.logged, terminal := r.terminal }

/-- The composite Express-compatible function returned by the adapter. -/
def runChain (loadedMiddlewares : List LoadedMiddleware) (req : Req) : RunResult :=
  runChainGo req loadedMiddlewares

/-- The order-hint exclusivity invariant on one descriptor, per axis: at
most one non-empty (truthy) hint of each after/before pair.  The code's
own tests of these fields (`fillDefaults`) are truthiness tests, so an
empty-string hint counts as unset. -/
def axisOk (e : Ext) : Bool :=
  (!truthy e.afterMiddleware || !truthy e.beforeMiddleware) &&
  (!truthy e.afterTask || !truthy e.beforeTask)

-- ========== Concrete values used in counterexamples and witnesses ==========

def wS : Ext := { name := "a-stringreplace", type := ExtType.middleware }

def wT : Ext := { name := "a-transpile", type := ExtType.middleware }

/-- A descriptor whose manifest entry declares both hints of the
middleware axis; the schema's `middleware` definition has no exclusivity
constraint, so such an entry is schema-valid. -/
def extBoth : Ext :=
  { name := "bad-ext", type := ExtType.middleware,
    afterMiddleware := some "x", beforeMiddleware := some "y" }

def ovBase : Ext :=
  { name := "abc-mw", type := ExtType.middleware, beforeMiddleware := some "X" }

/-- An override patch carrying both hints of the middleware axis. -/
def ovBoth : OverridePatch :=
  { afterMiddleware := some "Y", beforeMiddleware := some "Z" }

def ce5 : Ext :=
  { name := "abc-mw", type := ExtType.middleware,
    afterMiddleware := some "A", configuration := [("k", "ev"), ("m", "mv")] }

def cp5 : OverridePatch :=
  { beforeMiddleware := some "Z", mountPath := some "/x",
    configuration := some [("k", "pv"), ("n", "nv")] }

def hOk : LoadedMiddleware :=
  { name := "ok-mw", fn := fun _ => HandlerAction.callsNext none }

def hBoom : LoadedMiddleware :=
  { name := "boom-mw", fn := fun _ => HandlerAction.throws "boom" }

/-- A handler that throws a falsy error value (`throw ""` is legal JS). -/
def hFalsy : LoadedMiddleware :=
  { name := "falsy-mw", fn := fun _ => HandlerAction.throws "" }

def hAfter : LoadedMiddleware :=
  { name := "after-mw", fn := fun _ => HandlerAction.callsNext none }

def cInner : CfgObj :=
  { debugVal := true, disableVal := some ["x"], overrideVal := some [],
    keys := ["debug", "disable", "override", "mystery"] }

def cTop : CfgObj :=
  { debugVal := false, disableVal := some ["top-only"], overrideVal := none,
    keys := ["disable", "weird", "configuration"] }

def cfg9 : RawConfig :=
  { top := cTop, configuration := some cInner }

def mwDup : Ext := { name := "dup", type := ExtType.middleware }

def taskDup : Ext := { name := "dup", type := ExtType.task }

-- ========== Helper lemmas about the sort comparator ==========

theorem sortLe_iff (a b : Ext) :
    sortLe a b = true ↔
      (smartOrder a.name < smartOrder b.name ∨
        (smartOrder a.name = smartOrder b.name ∧ a.name ≤ b.name)) := by
  unfold sortLe
  by_cases h : smartOrder a.name = smartOrder b.name
  · simp [h]
  · simp [h]

theorem sortRel_total : ∀ a b : Ext, sortRel a b ∨ sortRel b a := by
  intro a b
  unfold sortRel
  rw [sortLe_iff, sortLe_iff]
  rcases Nat.lt_trichotomy (smartOrder a.name) (smartOrder b.name) with h | h | h
  · exact Or.inl (Or.inl h)
  · rcases le_total a.name b.name with hn | hn
    · exact Or.inl (Or.inr ⟨h, hn⟩)
    · exact Or.inr (Or.inr ⟨h.symm, hn⟩)
  · exact Or.inr (Or.inl h)

theorem sortRel_trans : ∀ a b c : Ext, sortRel a b → sortRel b c → sortRel a c := by
  intro a b c hab hbc
  unfold sortRel at hab hbc ⊢
  rw [sortLe_iff] at hab hbc ⊢
  rcases hab with h1 | ⟨h1, hn1⟩ <;> rcases hbc with h2 | ⟨h2, hn2⟩
  · exact Or.inl (by omega)
  · exact Or.inl (by omega)
  · exact Or.inl (by omega)
  · exact Or.inr ⟨by omega, le_trans hn1 hn2⟩

theorem smartSort_perm (xs : List Ext) : (smartSort xs).Perm xs :=
  List.perm_insertionSort sortRel xs

theorem mem_smartSort {e : Ext} {xs : List Ext} : e ∈ smartSort xs ↔ e ∈ xs :=
  (smartSort_perm xs).mem_iff

-- ========== C1 ==========

/-- C1: `smartSort` assigns each descriptor the bucket of the first
matching pattern in the fixed order (stringreplace → 10, transpile → 20,
modules → 30, livereload → 40, else 50; case-insensitive substring test)
and returns a permutation of its input sorted ascending by bucket with
ties ordered ascending by name under ordinal comparison; consequently a
strictly smaller bucket always lands at a strictly earlier output
position, regardless of the input order. -/
theorem smartSort_spec (xs : List Ext) :
    (smartSort xs).Perm xs ∧
    List.Pairwise (fun a b : Ext =>
      smartOrder a.name < smartOrder b.name ∨
        (smartOrder a.name = smartOrder b.name ∧ a.name ≤ b.name)) (smartSort xs) ∧
    (∀ nm : String,
      smartOrder nm =
        if containsCI nm "stringreplace" then 10
        else if containsCI nm "transpile" then 20
        else if containsCI nm "modules" then 30
        else if containsCI nm "livereload" then 40
        else 50) ∧
    ∀ i j : Fin (smartSort xs).length,
      smartOrder ((smartSort xs).get i).name < smartOrder ((smartSort xs).get j).name →
        (i : Nat) < (j : Nat) := by
  haveI : IsTotal Ext sortRel := ⟨sortRel_total⟩
  haveI : IsTrans Ext sortRel := ⟨sortRel_trans⟩
  have hsorted : List.Pairwise sortRel (smartSort xs) :=
    List.sorted_insertionSort sortRel xs
  have hpair : List.Pairwise (fun a b : Ext =>
      smartOrder a.name < smartOrder b.name ∨
        (smartOrder a.name = smartOrder b.name ∧ a.name ≤ b.name)) (smartSort xs) :=
    hsorted.imp (fun h => (sortLe_iff _ _).mp h)
  refine ⟨smartSort_perm xs, hpair, ?_, ?_⟩
  · intro nm
    simp [smartOrder, smartOrderGo, smartPatterns]
  · intro i j h
    by_contra hc
    push_neg at hc
    rcases Nat.lt_or_ge (j : Nat) (i : Nat) with hji | hji
    · have hR := (List.pairwise_iff_get.mp hpair) j i hji
      rcases hR with h2 | ⟨h2, _⟩ <;> omega
    · have hij : i = j := Fin.ext (by omega)
      rw [hij] at h
      exact lt_irrefl _ h

/-- C1 witness: in the two-element input `[wT, wS]` the stringreplace
name lands strictly before the transpile-only name. -/
theorem smartSort_spec_witness : (0 : Nat) < 1 := by
  have h := (smartSort_spec [wT, wS]).2.2.2 ⟨0, by decide⟩ ⟨1, by decide⟩
  exact h (by decide)

-- ========== Helper lemmas about deduplicate ==========

theorem dedupGo_sublist (seen : List String) (xs : List Ext) :
    (dedupGo seen xs).Sublist xs := by
  induction xs generalizing seen with
  | nil => simp [dedupGo]
  | cons x rest ih =>
    unfold dedupGo
    split
    · exact (ih seen).cons x
    · exact (ih (x.name :: seen)).cons₂ x

theorem mem_dedupGo {e : Ext} {seen : List String} {xs : List Ext} :
    e ∈ dedupGo seen xs → e ∈ xs ∧ e.name ∉ seen := by
  induction xs generalizing seen with
  | nil => simp [dedupGo]
  | cons x rest ih =>
    unfold dedupGo
    split
    · intro h
      obtain ⟨h1, h2⟩ := ih h
      exact ⟨List.mem_cons_of_mem _ h1, h2⟩
    · rename_i hx
      intro h
      rcases List.mem_cons.mp h with rfl | h
      · exact ⟨List.mem_cons_self _ _, hx⟩
      · obtain ⟨h1, h2⟩ := ih h
        refine ⟨List.mem_cons_of_mem _ h1, fun hs => h2 (List.mem_cons_of_mem _ hs)⟩

theorem dedupGo_names_nodup (seen : List String) (xs : List Ext) :
    ((dedupGo seen xs).map Ext.name).Nodup := by
  induction xs generalizing seen with
  | nil => simp [dedupGo]
  | cons x rest ih =>
    unfold dedupGo
    split
    · exact ih seen
    · simp only [List.map_cons, List.nodup_cons]
      refine ⟨?_, ih _⟩
      intro hmem
      rcases List.mem_map.mp hmem with ⟨e, he, hn⟩
      exact (mem_dedupGo he).2 (by rw [hn]; exact List.mem_cons_self _ _)

theorem dedupGo_filter (seen : List String) (xs : List Ext) (n : String) :
    (dedupGo seen xs).filter (fun e => decide (e.name = n)) =
      if n ∈ seen then [] else (xs.filter (fun e => decide (e.name = n))).take 1 := by
  induction xs generalizing seen with
  | nil => simp [dedupGo]
  | cons x rest ih =>
    unfold dedupGo
    by_cases hx : x.name ∈ seen
    · rw [if_pos hx, ih]
      by_cases hn : n ∈ seen
      · rw [if_pos hn, if_pos hn]
      · rw [if_neg hn, if_neg hn]
        have hxn : ¬(x.name = n) := fun h => hn (h ▸ hx)
        simp [List.filter_cons, hxn]
    · rw [if_neg hx]
      by_cases hxn : x.name = n
      · subst hxn
        rw [if_neg hx]
        simp only [List.filter_cons, decide_True, if_pos rfl]
        rw [ih]
        simp
      · simp only [List.filter_cons, hxn, decide_False]
        rw [ih]
        have hmem : (n ∈ x.name :: seen) ↔ (n ∈ seen) := by
          simp [List.mem_cons]
          intro h
          exact absurd h.symm hxn
        by_cases hn : n ∈ seen
        · rw [if_pos (List.mem_cons_of_mem _ hn), if_pos hn]
          simp
        · rw [if_neg (fun h => hn (hmem.mp h)), if_neg hn]
          simp [hxn]

theorem dedupGo_eq_self {xs : List Ext} {seen : List String}
    (h1 : ∀ e ∈ xs, e.name ∉ seen) (h2 : (xs.map Ext.name).Nodup) :
    dedupGo seen xs = xs := by
  induction xs generalizing seen with
  | nil => simp [dedupGo]
  | cons x rest ih =>
    unfold dedupGo
    rw [if_neg (h1 x (List.mem_cons_self _ _))]
    have h2m : (Ext.name x :: rest.map Ext.name).Nodup := by
      rw [List.map_cons] at h2
      exact h2
    have h2' := List.nodup_cons.mp h2m
    congr 1
    apply ih
    · intro e he
      simp only [List.mem_cons]
      rintro (heq | hs)
      · exact h2'.1 (heq ▸ List.mem_map_of_mem Ext.name he)
      · exact h1 e (List.mem_cons_of_mem _ he) hs
    · exact h2'.2

-- ========== C4 ==========

/-- C4: `deduplicate` keeps exactly the first descriptor in list order
for each distinct name: the output is a subsequence of the input (so
nothing is added and the survivors keep their relative order), the output
names are pairwise distinct, and for every name the descriptors bearing
it in the output are exactly the first such descriptor of the input —
so when two descriptors share a name the survivor is the one discovered
first. -/
theorem deduplicate_spec (xs : List Ext) :
    (deduplicate xs).Sublist xs ∧
    ((deduplicate xs).map Ext.name).Nodup ∧
    ∀ n : String,
      (deduplicate xs).filter (fun e => decide (e.name = n)) =
        (xs.filter (fun e => decide (e.name = n))).take 1 := by
  refine ⟨dedupGo_sublist [] xs, dedupGo_names_nodup [] xs, ?_⟩
  intro n
  have h := dedupGo_filter [] xs n
  simpa [deduplicate] using h

-- ========== C7 ==========

/-- C7: `deduplicate` is idempotent — running it on its own output is a
no-op. -/
theorem deduplicate_idempotent (xs : List Ext) :
    deduplicate (deduplicate xs) = deduplicate xs := by
  unfold deduplicate
  apply dedupGo_eq_self
  · intro e _
    exact List.not_mem_nil _
  · exact dedupGo_names_nodup [] xs

-- ========== C10 ==========

/-- C10: deduplication compares descriptors by name only, ignoring the
category: the middleware-filtered and task-filtered outputs can never
share a name, and whenever the first descriptor of the input bearing a
name has a different category than a later descriptor `t` with that name,
`t` is dropped from the output. -/
theorem deduplicate_ignores_category (xs : List Ext) :
    (∀ n : String,
      n ∈ ((deduplicate xs).filter (fun e => decide (e.type = ExtType.middleware))).map Ext.name →
      n ∉ ((deduplicate xs).filter (fun e => decide (e.type = ExtType.task))).map Ext.name) ∧
    ∀ m t : Ext,
      (xs.filter (fun e => decide (e.name = t.name))).head? = some m →
      m.type ≠ t.type → t ∉ deduplicate xs := by
  constructor
  · intro n hmw htk
    rcases List.mem_map.mp hmw with ⟨a, ha, hna⟩
    rcases List.mem_map.mp htk with ⟨b, hb, hnb⟩
    have ha2 := List.mem_of_mem_filter ha
    have hb2 := List.mem_of_mem_filter hb
    have hat : a.type = ExtType.middleware := by simpa using List.of_mem_filter ha
    have hbt : b.type = ExtType.task := by simpa using List.of_mem_filter hb
    have hab : a = b :=
      List.inj_on_of_nodup_map (dedupGo_names_nodup [] xs) ha2 hb2 (hna.trans hnb.symm)
    rw [hab, hbt] at hat
    exact ExtType.noConfusion hat
  · intro m t hhead hne ht
    have htf : t ∈ (deduplicate xs).filter (fun e => decide (e.name = t.name)) :=
      List.mem_filter.mpr ⟨ht, by simp⟩
    have hfeq := dedupGo_filter [] xs t.name
    rw [if_neg (List.not_mem_nil _)] at hfeq
    have htake : (xs.filter (fun e => decide (e.name = t.name))).take 1 = [m] := by
      cases hxf : xs.filter (fun e => decide (e.name = t.name)) with
      | nil => rw [hxf] at hhead; simp at hhead
      | cons y ys =>
        rw [hxf] at hhead
        simp only [List.head?] at hhead
        cases hhead
        simp
    unfold deduplicate at htf
    rw [hfeq, htake] at htf
    rcases List.mem_singleton.mp htf with rfl
    exact hne rfl

/-- C10 witness: a task named `dup` after a middleware named `dup` is
dropped by deduplication. -/
theorem deduplicate_ignores_category_witness :
    taskDup ∉ deduplicate [mwDup, taskDup] :=
  (deduplicate_ignores_category [mwDup, taskDup]).2 mwDup taskDup (by decide) (by decide)

-- ========== C6 ==========

/-- C6: `applyDisable` returns exactly the subsequence of its input whose
names are not in the disable list: it equals the straightforward filter,
it is a subsequence of the input (no additions, relative order kept,
elements — hence all their fields — unchanged), and membership is
input membership plus a name outside the disable list. -/
theorem applyDisable_spec (xs : List Ext) (d : List String) :
    applyDisable xs d = xs.filter (fun e => !decide (e.name ∈ d)) ∧
    (applyDisable xs d).Sublist xs ∧
    ∀ e : Ext, e ∈ applyDisable xs d ↔ e ∈ xs ∧ e.name ∉ d := by
  have hfe : applyDisable xs d = xs.filter (fun e => !decide (e.name ∈ d)) := by
    unfold applyDisable
    split
    · rename_i hd
      cases d with
      | nil => simp
      | cons a as => simp [List.isEmpty] at hd
    · rfl
  refine ⟨hfe, ?_, ?_⟩
  · rw [hfe]
    exact List.filter_sublist xs
  · intro e
    rw [hfe, List.mem_filter]
    simp

-- ========== Helper lemmas for the axis invariant ==========

theorem mem_of_mem_applyDisable {e : Ext} {xs : List Ext} {d : List String} :
    e ∈ applyDisable xs d → e ∈ xs := by
  unfold applyDisable
  split
  · exact id
  · exact fun h => List.mem_of_mem_filter h

theorem axisOk_fillDefaultExt {e : Ext} (h : axisOk e = true) :
    axisOk (fillDefaultExt e) = true := by
  unfold fillDefaultExt
  split_ifs with h1 h2
  · obtain ⟨-, -, h1c⟩ := h1
    simp only [axisOk, truthy, Bool.and_eq_true, Bool.or_eq_true,
      Bool.not_eq_true'] at h ⊢
    exact ⟨Or.inr (by simpa using h1c), h.2⟩
  · obtain ⟨-, -, h2c⟩ := h2
    simp only [axisOk, truthy, Bool.and_eq_true, Bool.or_eq_true,
      Bool.not_eq_true'] at h ⊢
    exact ⟨h.1, Or.inr (by simpa using h2c)⟩
  · exact h

theorem axisOk_applyOverrideExt {e : Ext} (p : OverridePatch) (h : axisOk e = true) :
    axisOk (applyOverrideExt e p) = true := by
  rcases p with ⟨pam, pbm, pta, ptb, pmp, pc⟩
  cases pam <;> cases pbm <;> cases pta <;> cases ptb <;> cases pmp <;> cases pc <;>
    simp_all [applyOverrideExt, axisOk, truthy]

theorem stages_preserve_axisOk (xs : List Ext) (d : List String) (ov : OverrideMap)
    (h : xs.all axisOk = true) :
    (fillDefaults (applyDisable xs d)).all axisOk = true ∧
    (applyOverride (fillDefaults (applyDisable xs d)) ov).all axisOk = true ∧
    (smartSort (deduplicate (validateRefs
      (applyOverride (fillDefaults (applyDisable xs d)) ov)))).all axisOk = true := by
  rw [List.all_eq_true] at h
  have hd : ∀ e ∈ applyDisable xs d, axisOk e = true :=
    fun e he => h e (mem_of_mem_applyDisable he)
  have hf : ∀ e ∈ fillDefaults (applyDisable xs d), axisOk e = true := by
    intro e he
    rcases List.mem_map.mp he with ⟨e0, he0, rfl⟩
    exact axisOk_fillDefaultExt (hd e0 he0)
  have ho : ∀ e ∈ applyOverride (fillDefaults (applyDisable xs d)) ov, axisOk e = true := by
    intro e he
    unfold applyOverride at he
    split at he
    · exact hf e he
    · rcases List.mem_map.mp he with ⟨e0, he0, rfl⟩
      cases hob : objLookup e0.name ov with
      | none => simpa [hob] using hf e0 he0
      | some p => simpa [hob] using axisOk_applyOverrideExt p (hf e0 he0)
  have hfinal : ∀ e ∈ smartSort (deduplicate (validateRefs
      (applyOverride (fillDefaults (applyDisable xs d)) ov))), axisOk e = true := by
    intro e he
    have h1 := mem_smartSort.mp he
    have h2 := (mem_dedupGo h1).1
    exact ho e h2
  exact ⟨List.all_eq_true.mpr hf, List.all_eq_true.mpr ho, List.all_eq_true.mpr hfinal⟩

theorem processStages_middleware (xs : List Ext) (config : RawConfig) :
    (processStages xs config).middleware =
      (smartSort (deduplicate (validateRefs (applyOverride
        (fillDefaults (applyDisable xs (loadConfig config).1.disable))
        (loadConfig config).1.override)))).filter
          (fun ext => decide (ext.type = ExtType.middleware)) := rfl

theorem processStages_tasks (xs : List Ext) (config : RawConfig) :
    (processStages xs config).tasks =
      (smartSort (deduplicate (validateRefs (applyOverride
        (fillDefaults (applyDisable xs (loadConfig config).1.disable))
        (loadConfig config).1.override)))).filter
          (fun ext => decide (ext.type = ExtType.task)) := rfl

-- ========== C2 ==========

/-- C2 counterexample: a schema-valid manifest entry declaring both
hints of the middleware axis yields a descriptor that still carries both
hints in the outputs of `fillDefaults` and `applyOverride`, and in the
final sorted middleware output — so the claimed at-most-one invariant
fails for such inputs. -/
theorem order_hint_exclusive_counterexample :
    (fillDefaults [extBoth]).all
        (fun e => e.afterMiddleware.isNone || e.beforeMiddleware.isNone) = false ∧
    (applyOverride (fillDefaults [extBoth]) []).all
        (fun e => e.afterMiddleware.isNone || e.beforeMiddleware.isNone) = false ∧
    (processStages [extBoth] ({} : RawConfig)).middleware.all
        (fun e => e.afterMiddleware.isNone || e.beforeMiddleware.isNone) = false := by
  decide

/-- C2 amended: the pipeline stages preserve the exclusivity invariant
instead of establishing it: whenever every input descriptor carries at
most one non-empty hint per axis, so does every descriptor in the outputs
of `fillDefaults`, of `applyOverride`, and in both final sorted output
sequences. -/
theorem order_hint_exclusive_preserved (xs : List Ext) (config : RawConfig)
    (h : xs.all axisOk = true) :
    (fillDefaults (applyDisable xs (loadConfig config).1.disable)).all axisOk = true ∧
    (applyOverride (fillDefaults (applyDisable xs (loadConfig config).1.disable))
        (loadConfig config).1.override).all axisOk = true ∧
    (processStages xs config).middleware.all axisOk = true ∧
    (processStages xs config).tasks.all axisOk = true := by
  obtain ⟨h1, h2, h3⟩ :=
    stages_preserve_axisOk xs (loadConfig config).1.disable (loadConfig config).1.override h
  rw [List.all_eq_true] at h3
  refine ⟨h1, h2, ?_, ?_⟩
  · rw [processStages_middleware, List.all_eq_true]
    intro e he
    exact h3 e (List.mem_of_mem_filter he)
  · rw [processStages_tasks, List.all_eq_true]
    intro e he
    exact h3 e (List.mem_of_mem_filter he)

/-- C2 witness: the preservation theorem applied to a concrete
single-descriptor input. -/
theorem order_hint_exclusive_preserved_witness :
    (processStages [wS] ({} : RawConfig)).middleware.all axisOk = true :=
  (order_hint_exclusive_preserved [wS] {} (by decide)).2.2.1

-- ========== C3 ==========

/-- C3: the stage pipeline after discovery is a pure, deterministic
function of the discovered descriptor list and the raw configuration:
two runs on the same input produce identical ordered middleware and task
sequences. -/
theorem processPipeline_deterministic (xs : List Ext) (config : RawConfig) :
    (processStages xs config).middleware = (processStages xs config).middleware ∧
    (processStages xs config).tasks = (processStages xs config).tasks :=
  ⟨rfl, rfl⟩

-- ========== Helper lemmas about shallow object merge ==========

theorem objLookup_append {α : Type} (k : String) (l1 l2 : List (String × α)) :
    objLookup k (l1 ++ l2) = optOr (objLookup k l1) (objLookup k l2) := by
  induction l1 with
  | nil => simp [objLookup, optOr]
  | cons kv l1 ih =>
    by_cases hk : kv.1 = k
    · simp [objLookup, hk, optOr]
    · simp [objLookup, hk, ih]

theorem objLookup_mapPatch (k : String) (b p : ConfigObj) :
    objLookup k (b.map (fun kv =>
        match objLookup kv.1 p with
        | some v => (kv.1, v)
        | none => kv)) =
      (objLookup k b).map (fun v => (objLookup k p).getD v) := by
  induction b with
  | nil => simp [objLookup]
  | cons kv b ih =>
    by_cases hk : kv.1 = k
    · cases hp : objLookup kv.1 p <;> simp [objLookup, hk, hp, hk ▸ hp]
    · cases hp : objLookup kv.1 p <;> simp [objLookup, hk, hp, ih]

theorem objLookup_filterNew (k : String) (p b : ConfigObj) :
    objLookup k (p.filter (fun kv => (objLookup kv.1 b).isNone)) =
      if (objLookup k b).isNone then objLookup k p else none := by
  induction p with
  | nil => cases h : (objLookup k b).isNone <;> simp [objLookup, h]
  | cons kv p ih =>
    by_cases hk : kv.1 = k
    · subst hk
      cases hb : (objLookup kv.1 b).isNone <;>
        simp [List.filter_cons, hb, objLookup, ih]
    · cases hc : (objLookup kv.1 b).isNone <;>
        simp [List.filter_cons, hc, objLookup, hk, ih]

theorem objLookup_objMerge (k : String) (b p : ConfigObj) :
    objLookup k (objMerge b p) = optOr (objLookup k p) (objLookup k b) := by
  unfold objMerge
  rw [objLookup_append, objLookup_mapPatch, objLookup_filterNew]
  cases hb : objLookup k b <;> cases hp : objLookup k p <;>
    simp [optOr, hb, hp]

-- ========== C5 ==========

/-- C5 counterexample: the patch `ovBoth` sets `afterMiddleware = "Y"`
(and also `beforeMiddleware = "Z"`); the claim says the result then
carries the patch's `afterMiddleware`, but the code's later
`beforeMiddleware` block clears it, so the result carries no
`afterMiddleware` at all. -/
theorem applyOverride_after_counterexample :
    ovBoth.afterMiddleware = some "Y" ∧
    (applyOverride [ovBase] [("abc-mw", ovBoth)]).map Ext.afterMiddleware = [none] ∧
    (applyOverride [ovBase] [("abc-mw", ovBoth)]).map Ext.beforeMiddleware = [some "Z"] := by
  decide

/-- C5 amended: `applyOverride` rewrites each descriptor independently;
descriptors without an override entry are returned unchanged.  For a
patched descriptor: a patch setting `afterMiddleware` and not
`beforeMiddleware` yields that `afterMiddleware` and clears
`beforeMiddleware`; a patch setting `beforeMiddleware` yields it and
clears `afterMiddleware` (so when one patch sets both, `before` wins);
the task axis behaves the same way and the two axes are independent;
`mountPath` is replaced exactly when given; the configuration is
shallow-merged with patch keys winning key-by-key; name and category are
untouched. -/
theorem applyOverride_spec (xs : List Ext) (ov : OverrideMap) :
    (applyOverride xs ov = xs.map (fun e =>
      match objLookup e.name ov with
      | none => e
      | some p => applyOverrideExt e p)) ∧
    ∀ e : Ext, ∀ p : OverridePatch,
      (∀ v, p.afterMiddleware = some v → p.beforeMiddleware = none →
        (applyOverrideExt e p).afterMiddleware = some v ∧
        (applyOverrideExt e p).beforeMiddleware = none) ∧
      (∀ v, p.beforeMiddleware = some v →
        (applyOverrideExt e p).beforeMiddleware = some v ∧
        (applyOverrideExt e p).afterMiddleware = none) ∧
      (∀ v, p.afterTask = some v → p.beforeTask = none →
        (applyOverrideExt e p).afterTask = some v ∧
        (applyOverrideExt e p).beforeTask = none) ∧
      (∀ v, p.beforeTask = some v →
        (applyOverrideExt e p).beforeTask = some v ∧
        (applyOverrideExt e p).afterTask = none) ∧
      (p.afterMiddleware = none → p.beforeMiddleware = none →
        (applyOverrideExt e p).afterMiddleware = e.afterMiddleware ∧
        (applyOverrideExt e p).beforeMiddleware = e.beforeMiddleware) ∧
      (p.afterTask = none → p.beforeTask = none →
        (applyOverrideExt e p).afterTask = e.afterTask ∧
        (applyOverrideExt e p).beforeTask = e.beforeTask) ∧
      (∀ v, p.mountPath = some v → (applyOverrideExt e p).mountPath = some v) ∧
      (p.mountPath = none → (applyOverrideExt e p).mountPath = e.mountPath) ∧
      (p.configuration = none →
        (applyOverrideExt e p).configuration = e.configuration) ∧
      (∀ pc, p.configuration = some pc → ∀ k : String,
        objLookup k (applyOverrideExt e p).configuration =
          optOr (objLookup k pc) (objLookup k e.configuration)) ∧
      (applyOverrideExt e p).name = e.name ∧
      (applyOverrideExt e p).type = e.type := by
  constructor
  · unfold applyOverride
    split
    · rename_i hov
      cases ov with
      | nil => simp [objLookup]
      | cons a as => simp [List.isEmpty] at hov
    · rfl
  · intro e p
    rcases p with ⟨pam, pbm, pta, ptb, pmp, pc⟩
    cases pam <;> cases pbm <;> cases pta <;> cases ptb <;> cases pmp <;> cases pc <;>
      simp [applyOverrideExt, objLookup_objMerge]

/-- C5 witness: the amended theorem applied to a concrete descriptor and
patch setting `beforeMiddleware`. -/
theorem applyOverride_spec_witness :
    (applyOverrideExt ce5 cp5).beforeMiddleware = some "Z" ∧
    (applyOverrideExt ce5 cp5).afterMiddleware = none :=
  ((applyOverride_spec [ce5] [("abc-mw", cp5)]).2 ce5 cp5).2.1 "Z" rfl

-- ========== C8 ==========

/-- C8 counterexample: a handler that throws the falsy error `""` is
caught and logged, but `run("")` skips the `if (err)` guard, so the
handler after the thrower IS invoked and the terminal continuation
finally receives no error at all — refuting the claim's assertions that
the error is handed to the host's terminal continuation and that the
remaining handlers are not invoked, for this synchronously thrown
error. -/
theorem middleware_chain_falsy_counterexample :
    hFalsy.fn "req" = HandlerAction.throws "" ∧
    runChain [hFalsy, hAfter] "req" =
      { invoked := ["falsy-mw", "after-mw"], logged := [("falsy-mw", "")],
        terminal := none } := by
  exact ⟨rfl, rfl⟩

/-- C8 amended: when the chain reaches a handler that throws a truthy
(non-empty) error synchronously (all handlers before it called the
continuation cleanly), the adapter's catch block logs the error
attributed to that handler's name, the terminal continuation receives
the error (the host error pipeline takes over, and `runChain` yields a
`RunResult` rather than letting the exception escape), and the handlers
after the throwing one are not invoked.  A falsy thrown error is still
caught and logged, but `run`'s `if (err)` guard then lets the chain
continue. -/
theorem middleware_chain_throw_spec (pre post : List LoadedMiddleware)
    (m : LoadedMiddleware) (req : Req) (e : Err)
    (he : e.isEmpty = false)
    (hpre : ∀ h ∈ pre, h.fn req = HandlerAction.callsNext none)
    (hm : m.fn req = HandlerAction.throws e) :
    runChain (pre ++ m :: post) req =
      { invoked := pre.map (fun h => h.name) ++ [m.name],
        logged := [(m.name, e)],
        terminal := some e } := by
  induction pre with
  | nil => simp [runChain, runChainGo, hm, he]
  | cons h0 rest ih =>
    have h0n := hpre h0 (List.mem_cons_self _ _)
    have hrest : ∀ h ∈ rest, h.fn req = HandlerAction.callsNext none :=
      fun h hh => hpre h (List.mem_cons_of_mem _ hh)
    have hr := ih hrest
    simp only [List.cons_append, runChain, runChainGo, h0n, truthy,
      List.append_eq] at hr ⊢
    rw [hr]
    simp

/-- C8 witness: in a three-handler chain whose middle handler throws the
non-empty error "boom", the first handler runs, the thrower is logged by
name, the error reaches the terminal continuation, and the third handler
never runs. -/
theorem middleware_chain_throw_spec_witness :
    runChain [hOk, hBoom, hAfter] "req" =
      { invoked := ["ok-mw", "boom-mw"], logged := [("boom-mw", "boom")],
        terminal := some "boom" } := by
  have h := middleware_chain_throw_spec [hOk] [hAfter] hBoom "req" "boom" rfl
    (by
      intro x hx
      rcases List.mem_singleton.mp hx with rfl
      rfl)
    rfl
  simpa [hOk, hBoom] using h

-- ========== C9 ==========

/-- C9: when the raw configuration object carries a truthy nested
`configuration` object, `loadConfig` reads debug, disable and override
exclusively from that nested object — the result coincides with running
`loadConfig` on the nested object alone, so top-level siblings of the
`configuration` key are ignored — and every unknown-key warning names a
key of the nested object, never a top-level key. -/
theorem loadConfig_nested_spec (config : RawConfig) (inner : CfgObj)
    (h : config.configuration = some inner) :
    loadConfig config = loadConfig { top := inner, configuration := none } ∧
    (loadConfig config).1 =
      { debug := inner.debugVal, disable := inner.disableVal.getD [],
        override := inner.overrideVal.getD [] } ∧
    (loadConfig config).2 = inner.keys.filter (fun k => !decide (k ∈ knownKeys)) ∧
    ∀ k ∈ (loadConfig config).2, k ∈ inner.keys := by
  unfold loadConfig
  rw [h]
  exact ⟨rfl, rfl, rfl, fun k hk => List.mem_of_mem_filter hk⟩

/-- C9 witness: a configuration with a truthy nested object and unrelated
top-level keys is normalized exactly as the nested object alone. -/
theorem loadConfig_nested_spec_witness :
    loadConfig cfg9 = loadConfig { top := cInner, configuration := none } :=
  (loadConfig_nested_spec cfg9 cInner rfl).1

end UI5PluginLoader
